import Mathlib

/-!
Verification of the TREX reactor scheduling core against its code.

The definitions below are a shallow embedding of the C++ sources of
trex-autonomy (TeleoReactor.cc, AgentClock.hh, EuropaXML.cc, Observer.cc,
PerformanceMonitor.hh).  Machine integers are modelled as Nat (TICK is an
unsigned tick count), fallible code (checkError) returns Except, and the
reactor/timeline graph of the running Agent is captured by AgentSpec.
-/

namespace TREX

/-- The part of the Agent visible to TeleoReactor::getPriority: a count of
reactors (Agent::getReactorCount), each reactor's external timeline list
(queryTimelineModes) and the owner map (Agent::getOwner, which can return an
invalid id, modelled as Option). -/
structure AgentSpec where
  n : Nat
  externals : Fin n → List String
  owner : String → Option (Fin n)

/-- Reactor r depends on reactor s: some external timeline of r is owned by s. -/
def Edge (ag : AgentSpec) (r s : Fin ag.n) : Prop :=
  ∃ t, t ∈ ag.externals r ∧ ag.owner t = some s

instance (ag : AgentSpec) (r s : Fin ag.n) : Decidable (Edge ag r s) := by
  unfold Edge; infer_instance

/-- A nonempty path in the dependency graph. -/
inductive PathPlus (ag : AgentSpec) : Fin ag.n → Fin ag.n → Prop
  | single {r s : Fin ag.n} : Edge ag r s → PathPlus ag r s
  | cons {r m s : Fin ag.n} : Edge ag r m → PathPlus ag m s → PathPlus ag r s

/-- The dependency graph is acyclic: no reactor reaches itself by a
nonempty chain of external-timeline ownership. -/
def Acyclic (ag : AgentSpec) : Prop := ∀ r : Fin ag.n, ¬ PathPlus ag r r

/-- Every external timeline of every reactor has a valid owner
(Agent::getOwner succeeds); this is what a well-formed configuration
guarantees and what checkError(owner.isValid(), ...) asserts. -/
def WellFormed (ag : AgentSpec) : Prop :=
  ∀ r : Fin ag.n, ∀ t ∈ ag.externals r, (ag.owner t).isSome = true

instance (ag : AgentSpec) : Decidable (WellFormed ag) := by
  unfold WellFormed; infer_instance

/-- The loop body of TeleoReactor::getPriority: iterate over the external
timelines, look up each owner (checkError(owner.isValid(), "Invalid id for
...")), and accumulate the max of the owners' priorities. `rec` is the
recursive call at callCount+1. -/
def prioLoop {α : Type} (rec : α → Except String Nat)
    (owner : String → Option α) : List String → Nat → Except String Nat
  | [], acc => .ok acc
  | t :: ts, acc =>
    match owner t with
    | none => .error ("Invalid id for " ++ t)
    | some s =>
      match rec s with
      | .error e => .error e
      | .ok p => prioLoop rec owner ts (max acc p)

/-- TeleoReactor::getPriority with the remaining recursion budget made
explicit: the C++ guard is checkError(callCount < reactorCount, "Cycle
detected in reactor specification"), so a call at callCount has
fuel = n - callCount remaining levels, fuel 0 meaning the guard fails.
Then: no externals gives priority 0, otherwise 1 + max over the externals'
owners of their priority at callCount + 1 (fuel - 1). -/
def getPriorityAux (ag : AgentSpec) : Nat → Fin ag.n → Except String Nat
  | 0, _ => .error "Cycle detected in reactor specification"
  | fuel + 1, r =>
    if (ag.externals r).isEmpty then .ok 0
    else
      match prioLoop (fun s => getPriorityAux ag fuel s) ag.owner (ag.externals r) 0 with
      | .error e => .error e
      | .ok p => .ok (1 + p)

/-- TeleoReactor::getPriority(callCount).  callCount < ag.n holds exactly
when ag.n - callCount > 0, so this is the C++ recursion verbatim with the
depth guard phrased as a fuel. -/
def getPriority (ag : AgentSpec) (r : Fin ag.n) (callCount : Nat) : Except String Nat :=
  getPriorityAux ag (ag.n - callCount) r

/-- The claim's "max over R's external timelines t of the priority of the
owner of t", folded in list order with accumulator acc (mirroring the C++
loop; timelines without an owner contribute nothing, a case excluded by
WellFormed). -/
def ownersMax (ag : AgentSpec) (P : Fin ag.n → Nat) : List String → Nat → Nat
  | [], acc => acc
  | t :: ts, acc =>
    match ag.owner t with
    | none => ownersMax ag P ts acc
    | some s => ownersMax ag P ts (max acc (P s))

end TREX

namespace TREX

/-! ### Lemmas about the priority recursion -/

theorem PathPlus.snoc {ag : AgentSpec} {a b c : Fin ag.n}
    (p : PathPlus ag a b) (e : Edge ag b c) : PathPlus ag a c := by
  induction p with
  | single e0 => exact .cons e0 (.single e)
  | cons e0 _ ih => exact .cons e0 (ih e)

/-- Every node on a cycle has a dependency successor that is on a cycle. -/
theorem cycle_step {ag : AgentSpec} {r : Fin ag.n} (h : PathPlus ag r r) :
    ∃ s, Edge ag r s ∧ PathPlus ag s s := by
  cases h with
  | single e => exact ⟨r, e, .single e⟩
  | cons e p => exact ⟨_, e, p.snoc e⟩

/-- The accumulator is a lower bound on a successful fold's result. -/
theorem prioLoop_acc_le {α : Type} {rec : α → Except String Nat}
    {owner : String → Option α} {ts : List String} {acc m : Nat}
    (h : prioLoop rec owner ts acc = .ok m) : acc ≤ m := by
  induction ts generalizing acc with
  | nil => rw [prioLoop] at h; cases h; exact le_refl m
  | cons t0 ts ih =>
    cases ho : owner t0 with
    | none => simp only [prioLoop, ho] at h; exact Except.noConfusion h
    | some s0 =>
      cases hr : rec s0 with
      | error e => simp only [prioLoop, ho, hr] at h; exact Except.noConfusion h
      | ok p =>
        simp only [prioLoop, ho, hr] at h
        exact le_trans (le_max_left acc p) (ih h)

/-- If the fold succeeds, every listed timeline has a valid owner whose
recursive priority call succeeded with a value bounded by the result. -/
theorem prioLoop_ok_mem {α : Type} {rec : α → Except String Nat}
    {owner : String → Option α} {ts : List String} {acc m : Nat}
    (h : prioLoop rec owner ts acc = .ok m) :
    ∀ t ∈ ts, ∃ s v, owner t = some s ∧ rec s = .ok v ∧ v ≤ m := by
  induction ts generalizing acc with
  | nil => intro t ht; cases ht
  | cons t0 ts ih =>
    intro t ht
    cases ho : owner t0 with
    | none => simp only [prioLoop, ho] at h; exact Except.noConfusion h
    | some s0 =>
      cases hr : rec s0 with
      | error e => simp only [prioLoop, ho, hr] at h; exact Except.noConfusion h
      | ok p =>
        simp only [prioLoop, ho, hr] at h
        rcases List.mem_cons.mp ht with rfl | hmem
        · refine ⟨s0, p, ho, hr, ?_⟩
          have hacc := prioLoop_acc_le h
          exact le_trans (le_max_right acc p) hacc
        · exact ih h t hmem

end TREX

namespace TREX

/-- Replacing the recursive call by one that agrees on successes preserves a
successful fold. -/
theorem prioLoop_congr {α : Type} {rec1 rec2 : α → Except String Nat}
    {owner : String → Option α} {ts : List String} {acc m : Nat}
    (hagree : ∀ s v, rec1 s = .ok v → rec2 s = .ok v)
    (h : prioLoop rec1 owner ts acc = .ok m) :
    prioLoop rec2 owner ts acc = .ok m := by
  induction ts generalizing acc with
  | nil => exact h
  | cons t0 ts ih =>
    cases ho : owner t0 with
    | none => simp only [prioLoop, ho] at h; exact Except.noConfusion h
    | some s0 =>
      cases hr : rec1 s0 with
      | error e => simp only [prioLoop, ho, hr] at h; exact Except.noConfusion h
      | ok p =>
        simp only [prioLoop, ho, hr] at h
        simp only [prioLoop, ho, hagree s0 p hr]
        exact ih h

/-- If every listed timeline has a valid owner whose recursive call
succeeds, the fold succeeds. -/
theorem prioLoop_ok_of {α : Type} {rec : α → Except String Nat}
    {owner : String → Option α} {ts : List String}
    (hall : ∀ t ∈ ts, ∃ s v, owner t = some s ∧ rec s = .ok v) :
    ∀ acc, ∃ m, prioLoop rec owner ts acc = .ok m := by
  induction ts with
  | nil => intro acc; exact ⟨acc, rfl⟩
  | cons t0 ts ih =>
    intro acc
    obtain ⟨s0, v0, ho, hr⟩ := hall t0 (List.mem_cons_self t0 ts)
    obtain ⟨m, hm⟩ := ih (fun t ht => hall t (List.mem_cons_of_mem t0 ht)) (max acc v0)
    exact ⟨m, by simp only [prioLoop, ho, hr]; exact hm⟩

/-- When the recursive call returns P of the owner everywhere, the fold
computes ownersMax. -/
theorem prioLoop_eq_ownersMax {ag : AgentSpec} {rec : Fin ag.n → Except String Nat}
    {P : Fin ag.n → Nat} {ts : List String}
    (hrec : ∀ t ∈ ts, ∀ s, ag.owner t = some s → rec s = .ok (P s))
    (hown : ∀ t ∈ ts, (ag.owner t).isSome = true) :
    ∀ acc, prioLoop rec ag.owner ts acc = .ok (ownersMax ag P ts acc) := by
  induction ts with
  | nil => intro acc; rfl
  | cons t0 ts ih =>
    intro acc
    cases ho : ag.owner t0 with
    | none =>
      have := hown t0 (List.mem_cons_self t0 ts)
      rw [ho] at this; cases this
    | some s0 =>
      have hr := hrec t0 (List.mem_cons_self t0 ts) s0 ho
      simp only [prioLoop, ho, hr, ownersMax]
      exact ih (fun t ht s hs => hrec t (List.mem_cons_of_mem t0 ht) s hs)
        (fun t ht => hown t (List.mem_cons_of_mem t0 ht)) (max acc (P s0))

/-- Fuel monotonicity: a success at some fuel is reproduced, with the same
value, at any larger fuel (i.e. the value returned by getPriority does not
depend on the callCount it was started from, as long as it returns). -/
theorem getPriorityAux_mono {ag : AgentSpec} :
    ∀ {fuel fuel' : Nat} {r : Fin ag.n} {v : Nat}, fuel ≤ fuel' →
      getPriorityAux ag fuel r = .ok v → getPriorityAux ag fuel' r = .ok v := by
  intro fuel
  induction fuel with
  | zero => intro fuel' r v _ h; exact Except.noConfusion h
  | succ fuel ih =>
    intro fuel' r v hle h
    obtain ⟨fuel2, rfl⟩ : ∃ f2, fuel' = f2 + 1 :=
      ⟨fuel' - 1, by omega⟩
    have hle2 : fuel ≤ fuel2 := by omega
    by_cases hemp : (ag.externals r).isEmpty
    · rw [getPriorityAux, if_pos hemp] at h ⊢; exact h
    · rw [getPriorityAux, if_neg hemp] at h ⊢
      cases hp : prioLoop (fun s => getPriorityAux ag fuel s) ag.owner (ag.externals r) 0 with
      | error e => rw [hp] at h; exact Except.noConfusion h
      | ok p =>
        rw [hp] at h
        have hp2 : prioLoop (fun s => getPriorityAux ag fuel2 s) ag.owner
            (ag.externals r) 0 = .ok p :=
          prioLoop_congr (fun s w hw => ih hle2 hw) hp
        rw [hp2]; exact h

end TREX

namespace TREX

/-- The checkError message of the recursion-depth guard. -/
def cycleMsg : String := "Cycle detected in reactor specification"

/-- When every listed timeline has a valid owner and every recursive error
carries the cycle message, a failing fold carries the cycle message. -/
theorem prioLoop_error_msg {α : Type} {rec : α → Except String Nat}
    {owner : String → Option α} {ts : List String} {acc : Nat} {e : String}
    (hown : ∀ t ∈ ts, (owner t).isSome = true)
    (hrec : ∀ s e0, rec s = .error e0 → e0 = cycleMsg)
    (h : prioLoop rec owner ts acc = .error e) : e = cycleMsg := by
  induction ts generalizing acc with
  | nil => exact Except.noConfusion h
  | cons t0 ts ih =>
    cases ho : owner t0 with
    | none =>
      have := hown t0 (List.mem_cons_self t0 ts)
      rw [ho] at this; cases this
    | some s0 =>
      cases hr : rec s0 with
      | error e0 =>
        simp only [prioLoop, ho, hr] at h
        cases h
        exact hrec s0 _ hr
      | ok p =>
        simp only [prioLoop, ho, hr] at h
        exact ih (fun t ht => hown t (List.mem_cons_of_mem t0 ht)) h

/-- In a well-formed configuration the only failure getPriority can produce
is the cycle guard's. -/
theorem getPriorityAux_error_msg {ag : AgentSpec} (hwf : WellFormed ag) :
    ∀ (fuel : Nat) (r : Fin ag.n) (e : String),
      getPriorityAux ag fuel r = .error e → e = cycleMsg := by
  intro fuel
  induction fuel with
  | zero =>
    intro r e h
    rw [getPriorityAux] at h
    cases h; rfl
  | succ fuel ih =>
    intro r e h
    by_cases hemp : (ag.externals r).isEmpty
    · rw [getPriorityAux, if_pos hemp] at h; exact Except.noConfusion h
    · rw [getPriorityAux, if_neg hemp] at h
      cases hp : prioLoop (fun s => getPriorityAux ag fuel s) ag.owner (ag.externals r) 0 with
      | error e0 =>
        rw [hp] at h
        cases h
        exact prioLoop_error_msg (hwf r) (fun s e1 h1 => ih s e1 h1) hp
      | ok p => rw [hp] at h; exact Except.noConfusion h

/-- In a finite acyclic dependency graph there is a rank function that
strictly decreases along dependency edges and stays below the reactor
count. -/
theorem exists_rank {ag : AgentSpec} (hac : Acyclic ag) :
    ∃ rank : Fin ag.n → Nat,
      (∀ r s, Edge ag r s → rank s < rank r) ∧ ∀ r, rank r < ag.n := by
  classical
  refine ⟨fun r => (Finset.univ.filter (fun x => PathPlus ag r x)).card, ?_, ?_⟩
  · intro r s he
    apply Finset.card_lt_card
    constructor
    · intro x hx
      rw [Finset.mem_filter] at hx ⊢
      exact ⟨Finset.mem_univ x, .cons he hx.2⟩
    · intro hsub
      have hs : s ∈ Finset.univ.filter (fun x => PathPlus ag r x) :=
        Finset.mem_filter.mpr ⟨Finset.mem_univ s, .single he⟩
      have := Finset.mem_filter.mp (hsub hs)
      exact hac s this.2
  · intro r
    have hsub : (Finset.univ.filter (fun x => PathPlus ag r x)) ⊆
        Finset.univ.erase r := by
      intro x hx
      rw [Finset.mem_filter] at hx
      refine Finset.mem_erase.mpr ⟨?_, Finset.mem_univ x⟩
      intro hxr
      exact hac r (hxr ▸ hx.2)
    have h1 := Finset.card_le_card hsub
    have h2 : (Finset.univ.erase r).card = ag.n - 1 := by
      rw [Finset.card_erase_of_mem (Finset.mem_univ r)]
      simp
    have h3 : 0 < ag.n := r.pos
    rw [h2] at h1
    change (Finset.univ.filter (fun x => PathPlus ag r x)).card < ag.n
    omega

/-- With a strictly decreasing rank bounded by the fuel, getPriority
succeeds. -/
theorem getPriorityAux_ok_of_rank {ag : AgentSpec} {rank : Fin ag.n → Nat}
    (hrank : ∀ r s, Edge ag r s → rank s < rank r) (hwf : WellFormed ag) :
    ∀ (fuel : Nat) (r : Fin ag.n), rank r < fuel →
      ∃ v, getPriorityAux ag fuel r = .ok v := by
  intro fuel
  induction fuel with
  | zero => intro r h; omega
  | succ fuel ih =>
    intro r hlt
    by_cases hemp : (ag.externals r).isEmpty
    · exact ⟨0, by rw [getPriorityAux, if_pos hemp]⟩
    · have hall : ∀ t ∈ ag.externals r, ∃ s v, ag.owner t = some s ∧
          getPriorityAux ag fuel s = .ok v := by
        intro t ht
        cases ho : ag.owner t with
        | none =>
          have := hwf r t ht
          rw [ho] at this; cases this
        | some s =>
          have he : Edge ag r s := ⟨t, ht, ho⟩
          have : rank s < fuel := by have := hrank r s he; omega
          obtain ⟨v, hv⟩ := ih s this
          exact ⟨s, v, rfl, hv⟩
      obtain ⟨m, hm⟩ := prioLoop_ok_of hall 0
      exact ⟨1 + m, by rw [getPriorityAux, if_neg hemp, hm]⟩

/-- A reactor lying on a dependency cycle makes getPriority exhaust its
recursion budget and fail with the cycle guard, at every fuel. -/
theorem getPriorityAux_cycle {ag : AgentSpec} (hwf : WellFormed ag) :
    ∀ (fuel : Nat) (r : Fin ag.n), PathPlus ag r r →
      getPriorityAux ag fuel r = .error cycleMsg := by
  intro fuel
  induction fuel with
  | zero => intro r _; rfl
  | succ fuel ih =>
    intro r hcyc
    obtain ⟨s, he, hscyc⟩ := cycle_step hcyc
    obtain ⟨t, ht, ho⟩ := he
    have hemp : (ag.externals r).isEmpty = false := by
      cases hx : ag.externals r with
      | nil => rw [hx] at ht; cases ht
      | cons a l => rfl
    rw [getPriorityAux, if_neg (by rw [hemp]; exact Bool.false_ne_true)]
    cases hp : prioLoop (fun x => getPriorityAux ag fuel x) ag.owner (ag.externals r) 0 with
    | error e =>
      have : e = cycleMsg :=
        prioLoop_error_msg (hwf r) (fun x e1 h1 => getPriorityAux_error_msg hwf fuel x e1 h1) hp
      rw [this]
    | ok p =>
      obtain ⟨s', v, ho', hr', _⟩ := prioLoop_ok_mem hp t ht
      rw [ho] at ho'
      cases ho'
      rw [ih s hscyc] at hr'
      exact Except.noConfusion hr'

end TREX

namespace TREX

/-- Claim C2: in an acyclic dependency graph TeleoReactor::getPriority
returns 0 for a reactor with no external timelines and
1 + max over its external timelines of the owner's priority otherwise,
while for a reactor on a dependency cycle the recursion depth reaches the
agent's reactor count and getPriority fails with the fatal
"Cycle detected in reactor specification" configuration error. -/
theorem getPriority_spec (ag : AgentSpec) :
    (WellFormed ag → Acyclic ag →
      ∃ P : Fin ag.n → Nat,
        (∀ r, getPriority ag r 0 = .ok (P r)) ∧
        (∀ r, (ag.externals r).isEmpty = true → P r = 0) ∧
        (∀ r, (ag.externals r).isEmpty = false →
          P r = 1 + ownersMax ag P (ag.externals r) 0))
    ∧ (∀ r : Fin ag.n, WellFormed ag → PathPlus ag r r →
        getPriority ag r 0 = .error cycleMsg) := by
  constructor
  · intro hwf hac
    obtain ⟨rank, hrank, hbound⟩ := exists_rank hac
    have hok : ∀ r : Fin ag.n, ∃ v, getPriorityAux ag ag.n r = .ok v :=
      fun r => getPriorityAux_ok_of_rank hrank hwf ag.n r (hbound r)
    choose P hP using hok
    have hget : ∀ r, getPriority ag r 0 = .ok (P r) := by
      intro r
      rw [getPriority, Nat.sub_zero]
      exact hP r
    refine ⟨P, hget, ?_, ?_⟩
    · intro r hemp
      obtain ⟨m, hn⟩ : ∃ m, ag.n = m + 1 := ⟨ag.n - 1, by have := r.pos; omega⟩
      have h0 : getPriorityAux ag ag.n r = .ok 0 := by
        rw [hn, getPriorityAux, if_pos hemp]
      have := hP r
      rw [h0] at this
      exact (Except.ok.inj this).symm
    · intro r hemp
      obtain ⟨m, hn⟩ : ∃ m, ag.n = m + 1 := ⟨ag.n - 1, by have := r.pos; omega⟩
      have hrec : ∀ t ∈ ag.externals r, ∀ s, ag.owner t = some s →
          getPriorityAux ag m s = .ok (P s) := by
        intro t ht s ho
        have he : Edge ag r s := ⟨t, ht, ho⟩
        have hlt : rank s < m := by
          have h1 := hrank r s he
          have h2 := hbound r
          omega
        obtain ⟨v, hv⟩ := getPriorityAux_ok_of_rank hrank hwf m s hlt
        have hvn : getPriorityAux ag ag.n s = .ok v :=
          getPriorityAux_mono (by omega) hv
        have := hP s
        rw [hvn] at this
        exact (Except.ok.inj this) ▸ hv
      have hploop : prioLoop (fun s => getPriorityAux ag m s) ag.owner
          (ag.externals r) 0 = .ok (ownersMax ag P (ag.externals r) 0) :=
        prioLoop_eq_ownersMax hrec (hwf r) 0
      have hres : getPriorityAux ag ag.n r =
          .ok (1 + ownersMax ag P (ag.externals r) 0) := by
        rw [hn, getPriorityAux, if_neg (by rw [hemp]; exact Bool.false_ne_true), hploop]
      have := hP r
      rw [hres] at this
      exact (Except.ok.inj this).symm
  · intro r hwf hcyc
    rw [getPriority, Nat.sub_zero]
    exact getPriorityAux_cycle hwf ag.n r hcyc

end TREX

namespace TREX

theorem rank_lt_of_pathPlus {ag : AgentSpec} {rank : Fin ag.n → Nat}
    (h : ∀ r s, Edge ag r s → rank s < rank r) :
    ∀ {r s : Fin ag.n}, PathPlus ag r s → rank s < rank r := by
  intro r s hp
  induction hp with
  | single e => exact h _ _ e
  | cons e _ ih => exact lt_trans ih (h _ _ e)

/-- A strictly edge-decreasing rank certifies acyclicity. -/
theorem acyclic_of_rank (ag : AgentSpec) (rank : Fin ag.n → Nat)
    (h : ∀ r s, Edge ag r s → rank s < rank r) : Acyclic ag := by
  intro r hcyc
  exact lt_irrefl (rank r) (rank_lt_of_pathPlus h hcyc)

/-- A two-reactor acyclic agent: reactor 1 observes timeline "clock",
owned by reactor 0, which has no externals. -/
abbrev agWitA : AgentSpec where
  n := 2
  externals := fun r => if r = 0 then [] else ["clock"]
  owner := fun t => if t = "clock" then some 0 else none

/-- A two-reactor cyclic agent: reactor 0 observes "y" owned by reactor 1,
which observes "x" owned by reactor 0. -/
abbrev agWitB : AgentSpec where
  n := 2
  externals := fun r => if r = 0 then ["y"] else ["x"]
  owner := fun t => if t = "x" then some 0 else if t = "y" then some 1 else none

theorem getPriority_spec_witness :
    (∃ P : Fin agWitA.n → Nat,
        (∀ r, getPriority agWitA r 0 = .ok (P r)) ∧
        (∀ r, (agWitA.externals r).isEmpty = true → P r = 0) ∧
        (∀ r, (agWitA.externals r).isEmpty = false →
          P r = 1 + ownersMax agWitA P (agWitA.externals r) 0))
    ∧ getPriority agWitB 0 0 = .error cycleMsg := by
  constructor
  · exact (getPriority_spec agWitA).1 (by decide)
      (acyclic_of_rank agWitA (fun r => if r = 0 then 0 else 1) (by decide))
  · have e01 : Edge agWitB 0 1 := ⟨"y", by decide, by decide⟩
    have e10 : Edge agWitB 1 0 := ⟨"x", by decide, by decide⟩
    exact (getPriority_spec agWitB).2 0 (by decide) (PathPlus.cons e01 (PathPlus.single e10))

end TREX

namespace TREX
namespace TeleoReactor

/-- The inner for loop of TeleoReactor::sort, carrying the element currently
at position i: compare with its right neighbour b and swap when
b->getPriority() < a->getPriority().  Returns the rearranged suffix and the
swapped flag. -/
def passAux {α : Type} (prio : α → Nat) (a : α) : List α → List α × Bool
  | [] => ([a], false)
  | b :: rest =>
    if prio b < prio a then
      ((passAux prio a rest).1.cons b, true)
    else
      ((passAux prio b rest).1.cons a, (passAux prio b rest).2)

/-- One full sweep of TeleoReactor::sort's inner for loop over the whole
vector (i from 0 to size-2). -/
def bubblePass {α : Type} (prio : α → Nat) : List α → List α × Bool
  | [] => ([], false)
  | a :: rest => passAux prio a rest

/-- Number of out-of-order pairs; the variant of the while loop. -/
def inversions {α : Type} (prio : α → Nat) : List α → Nat
  | [] => 0
  | a :: l => l.countP (fun b => decide (prio b < prio a)) + inversions prio l

theorem passAux_perm {α : Type} (prio : α → Nat) (a : α) (l : List α) :
    (passAux prio a l).1.Perm (a :: l) := by
  induction l generalizing a with
  | nil => exact List.Perm.refl _
  | cons b rest ih =>
    by_cases h : prio b < prio a
    · rw [passAux, if_pos h]
      exact ((ih a).cons b).trans (List.Perm.swap a b rest)
    · rw [passAux, if_neg h]
      exact (ih b).cons a

theorem passAux_of_not_swapped {α : Type} (prio : α → Nat) (a : α) (l : List α) :
    (passAux prio a l).2 = false → (passAux prio a l).1 = a :: l := by
  induction l generalizing a with
  | nil => intro _; rfl
  | cons b rest ih =>
    intro h
    by_cases hc : prio b < prio a
    · rw [passAux, if_pos hc] at h; cases h
    · rw [passAux, if_neg hc] at h ⊢
      rw [ih b h]

theorem passAux_chain {α : Type} (prio : α → Nat) (a : α) (l : List α) :
    (passAux prio a l).2 = false →
    List.Chain' (fun x y => prio x ≤ prio y) (a :: l) := by
  induction l generalizing a with
  | nil => intro _; simp
  | cons b rest ih =>
    intro h
    by_cases hc : prio b < prio a
    · rw [passAux, if_pos hc] at h; cases h
    · rw [passAux, if_neg hc] at h
      exact List.Chain'.cons (Nat.le_of_not_lt hc) (ih b h)

theorem passAux_inversions {α : Type} (prio : α → Nat) (a : α) (l : List α) :
    inversions prio (passAux prio a l).1 +
      (if (passAux prio a l).2 then 1 else 0) ≤ inversions prio (a :: l) := by
  induction l generalizing a with
  | nil => simp [passAux, inversions]
  | cons b rest ih =>
    by_cases hc : prio b < prio a
    · rw [passAux, if_pos hc]
      have hperm := passAux_perm prio a rest
      have hcount : ((passAux prio a rest).1.countP (fun x => decide (prio x < prio b)))
          = rest.countP (fun x => decide (prio x < prio b)) := by
        rw [hperm.countP_eq]
        have : ¬ prio a < prio b := by omega
        simp [List.countP_cons, this]
      have hIH := ih a
      have hab : prio b < prio a := hc
      simp only [List.cons.injEq, inversions, List.countP_cons, if_true] at *
      simp only [hcount]
      simp only [decide_eq_true_eq] at *
      have h1 : (if prio b < prio a then 1 else 0) = 1 := by simp [hab]
      rw [h1]
      omega
    · rw [passAux, if_neg hc]
      have hperm := passAux_perm prio b rest
      have hcount : ((passAux prio b rest).1.countP (fun x => decide (prio x < prio a)))
          = (b :: rest).countP (fun x => decide (prio x < prio a)) := hperm.countP_eq _
      have hIH := ih b
      have e1 : inversions prio ((passAux prio b rest).1.cons a)
          = (passAux prio b rest).1.countP (fun x => decide (prio x < prio a))
            + inversions prio (passAux prio b rest).1 := rfl
      have e2 : inversions prio (a :: b :: rest)
          = (b :: rest).countP (fun x => decide (prio x < prio a))
            + inversions prio (b :: rest) := rfl
      dsimp only
      rw [e1, e2, hcount]
      omega

theorem passAux_filter {α : Type} (prio : α → Nat) (q : α → Bool)
    (hq : ∀ x y, q x = true → q y = true → prio x = prio y) (a : α) (l : List α) :
    (passAux prio a l).1.filter q = (a :: l).filter q := by
  induction l generalizing a with
  | nil => rfl
  | cons b rest ih =>
    by_cases hc : prio b < prio a
    · rw [passAux, if_pos hc]
      have hne : ¬ (q a = true ∧ q b = true) := by
        rintro ⟨ha, hb⟩
        rw [hq a b ha hb] at hc
        omega
      by_cases hqa : q a = true
      · have hqb : q b = false := by
          cases hb : q b
          · rfl
          · exact absurd ⟨hqa, hb⟩ hne
        simp only [List.filter_cons, hqb, hqa, List.cons.injEq]
        rw [ih a]
        simp [List.filter_cons, hqa]
      · have hqa' : q a = false := by cases hx : q a; rfl; exact absurd hx hqa
        simp only [List.filter_cons, hqa']
        rw [ih a]
        simp [List.filter_cons, hqa']
    · rw [passAux, if_neg hc]
      simp only [List.filter_cons]
      rw [ih b]
      simp [List.filter_cons]

end TeleoReactor
end TREX

namespace TREX
namespace TeleoReactor

theorem bubblePass_perm {α : Type} (prio : α → Nat) (l : List α) :
    (bubblePass prio l).1.Perm l := by
  cases l with
  | nil => exact List.Perm.refl _
  | cons a rest => exact passAux_perm prio a rest

theorem bubblePass_of_not_swapped {α : Type} (prio : α → Nat) (l : List α) :
    (bubblePass prio l).2 = false → (bubblePass prio l).1 = l := by
  cases l with
  | nil => intro _; rfl
  | cons a rest => exact passAux_of_not_swapped prio a rest

theorem bubblePass_chain {α : Type} (prio : α → Nat) (l : List α) :
    (bubblePass prio l).2 = false →
    List.Chain' (fun x y => prio x ≤ prio y) l := by
  cases l with
  | nil => intro _; simp
  | cons a rest => exact passAux_chain prio a rest

theorem bubblePass_inversions {α : Type} (prio : α → Nat) (l : List α) :
    inversions prio (bubblePass prio l).1 +
      (if (bubblePass prio l).2 then 1 else 0) ≤ inversions prio l := by
  cases l with
  | nil => simp [bubblePass, inversions]
  | cons a rest => exact passAux_inversions prio a rest

theorem bubblePass_filter {α : Type} (prio : α → Nat) (q : α → Bool)
    (hq : ∀ x y, q x = true → q y = true → prio x = prio y) (l : List α) :
    (bubblePass prio l).1.filter q = l.filter q := by
  cases l with
  | nil => rfl
  | cons a rest => exact passAux_filter prio q hq a rest

/-- The while(swapped) loop of TeleoReactor::sort: sweep, and repeat as long
as the sweep swapped something. -/
def bubbleLoop {α : Type} (prio : α → Nat) (l : List α) : List α :=
  if h : (bubblePass prio l).2 = true then bubbleLoop prio (bubblePass prio l).1
  else (bubblePass prio l).1
termination_by inversions prio l
decreasing_by
  have hle := bubblePass_inversions prio l
  rw [h] at hle
  simp only [if_true] at hle
  omega

/-- TeleoReactor::sort(reactors): bubble sort on b->getPriority() <
a->getPriority(). -/
def sort {α : Type} (prio : α → Nat) (l : List α) : List α :=
  bubbleLoop prio l

theorem bubbleLoop_spec {α : Type} (prio : α → Nat) :
    ∀ (k : Nat) (l : List α), inversions prio l ≤ k →
      (bubbleLoop prio l).Perm l ∧
      List.Chain' (fun x y => prio x ≤ prio y) (bubbleLoop prio l) ∧
      ∀ q : α → Bool, (∀ x y, q x = true → q y = true → prio x = prio y) →
        (bubbleLoop prio l).filter q = l.filter q := by
  intro k
  induction k with
  | zero =>
    intro l hl
    have hsw : (bubblePass prio l).2 = false := by
      cases hs : (bubblePass prio l).2 with
      | false => rfl
      | true =>
        have := bubblePass_inversions prio l
        rw [hs] at this
        simp only [if_true] at this
        omega
    rw [bubbleLoop, dif_neg (by rw [hsw]; exact Bool.false_ne_true)]
    rw [bubblePass_of_not_swapped prio l hsw]
    exact ⟨List.Perm.refl _, bubblePass_chain prio l hsw, fun q _ => rfl⟩
  | succ k ih =>
    intro l hl
    cases hs : (bubblePass prio l).2 with
    | false =>
      rw [bubbleLoop, dif_neg (by rw [hs]; exact Bool.false_ne_true)]
      rw [bubblePass_of_not_swapped prio l hs]
      exact ⟨List.Perm.refl _, bubblePass_chain prio l hs, fun q _ => rfl⟩
    | true =>
      rw [bubbleLoop, dif_pos hs]
      have hinv : inversions prio (bubblePass prio l).1 ≤ k := by
        have := bubblePass_inversions prio l
        rw [hs] at this
        simp only [if_true] at this
        omega
      obtain ⟨hperm, hchain, hfil⟩ := ih (bubblePass prio l).1 hinv
      refine ⟨hperm.trans (bubblePass_perm prio l), hchain, ?_⟩
      intro q hq
      rw [hfil q hq, bubblePass_filter prio q hq l]

end TeleoReactor
end TREX

namespace TREX

/-- When all getPriority calls succeed, priorities strictly increase along
dependency edges: an owner's priority is below the dependent's. -/
theorem edge_prio_lt {ag : AgentSpec} {P : Fin ag.n → Nat}
    (hP : ∀ r, getPriority ag r 0 = .ok (P r)) {r s : Fin ag.n}
    (he : Edge ag r s) : P s < P r := by
  obtain ⟨t, ht, ho⟩ := he
  obtain ⟨m, hn⟩ : ∃ m, ag.n = m + 1 := ⟨ag.n - 1, by have := r.pos; omega⟩
  have hr := hP r
  rw [getPriority, Nat.sub_zero] at hr
  have hemp : (ag.externals r).isEmpty = false := by
    cases hx : ag.externals r with
    | nil => rw [hx] at ht; cases ht
    | cons a l => rfl
  rw [hn, getPriorityAux, if_neg (by rw [hemp]; exact Bool.false_ne_true)] at hr
  cases hp : prioLoop (fun x => getPriorityAux ag m x) ag.owner (ag.externals r) 0 with
  | error e => rw [hp] at hr; exact Except.noConfusion hr
  | ok p =>
    rw [hp] at hr
    have hpr : P r = 1 + p := (Except.ok.inj hr).symm
    obtain ⟨s2, v, ho2, hv, hle⟩ := prioLoop_ok_mem hp t ht
    rw [ho] at ho2
    cases ho2
    have hvn : getPriorityAux ag ag.n s = .ok v :=
      getPriorityAux_mono (by omega) hv
    have hps := hP s
    rw [getPriority, Nat.sub_zero, hvn] at hps
    have : v = P s := Except.ok.inj hps
    omega

/-- Claim C1: on an acyclic, well-formed reactor configuration,
TeleoReactor::sort permutes the reactor vector into non-decreasing priority
order, keeps reactors of equal priority in their original relative order
(bubble sort never swaps equal keys, so the result is the unique stable
order), and puts every reactor strictly after every reactor it depends on. -/
theorem sort_spec (ag : AgentSpec) (P : Fin ag.n → Nat) (rs : List (Fin ag.n))
    (hwf : WellFormed ag) (hac : Acyclic ag)
    (hP : ∀ r, getPriority ag r 0 = .ok (P r)) :
    (TeleoReactor.sort P rs).Perm rs ∧
    (TeleoReactor.sort P rs).Pairwise (fun a b => P a ≤ P b) ∧
    (∀ v : Nat, (TeleoReactor.sort P rs).filter (fun x => P x == v) =
      rs.filter (fun x => P x == v)) ∧
    ∀ i j : Fin (TeleoReactor.sort P rs).length,
      Edge ag ((TeleoReactor.sort P rs).get i) ((TeleoReactor.sort P rs).get j) →
      j < i := by
  obtain ⟨hperm, hchain, hfil⟩ :=
    TeleoReactor.bubbleLoop_spec P (TeleoReactor.inversions P rs) rs (le_refl _)
  have hpair : (TeleoReactor.sort P rs).Pairwise (fun a b => P a ≤ P b) := by
    haveI : IsTrans (Fin ag.n) (fun a b => P a ≤ P b) :=
      ⟨fun a b c h1 h2 => le_trans h1 h2⟩
    exact List.chain'_iff_pairwise.mp hchain
  refine ⟨hperm, hpair, ?_, ?_⟩
  · intro v
    refine hfil (fun x => P x == v) ?_
    intro x y hx hy
    simp only [beq_iff_eq] at hx hy
    rw [hx, hy]
  · intro i j he
    have hlt : P ((TeleoReactor.sort P rs).get j) <
        P ((TeleoReactor.sort P rs).get i) := edge_prio_lt hP he
    rcases lt_trichotomy i j with hij | hij | hij
    · have := List.pairwise_iff_get.mp hpair i j hij
      omega
    · rw [hij] at hlt
      omega
    · exact hij

/-- Concrete priorities for agWitA: reactor 0 owns "clock" and has priority
0, reactor 1 observes it and has priority 1. -/
def prioWitA : Fin agWitA.n → Nat := fun r => if r = 0 then 0 else 1

theorem sort_spec_witness :
    (TeleoReactor.sort prioWitA [1, 0]).Perm [1, 0] ∧
    (TeleoReactor.sort prioWitA [1, 0]).Pairwise (fun a b => prioWitA a ≤ prioWitA b) ∧
    (∀ v : Nat, (TeleoReactor.sort prioWitA [1, 0]).filter (fun x => prioWitA x == v) =
      List.filter (fun x => prioWitA x == v) [1, 0]) ∧
    ∀ i j : Fin (TeleoReactor.sort prioWitA [1, 0]).length,
      Edge agWitA ((TeleoReactor.sort prioWitA [1, 0]).get i)
        ((TeleoReactor.sort prioWitA [1, 0]).get j) → j < i :=
  sort_spec agWitA prioWitA [1, 0] (by decide)
    (acyclic_of_rank agWitA prioWitA (by decide))
    (by intro r; fin_cases r <;> rfl)

end TREX

namespace TREX

/-- The reactor state set up by the TeleoReactor constructors: name, agent
name, the configured lookAhead and latency (TICK, an unsigned count,
modelled as Nat) and the log flag.  No member function of TeleoReactor ever
assigns to m_latency or m_lookAhead after construction. -/
structure TeleoReactorState where
  m_name : String
  m_agentName : String
  m_lookAhead : Nat
  m_latency : Nat
  m_shouldLog : Bool

/-- The checkError message guarding both TeleoReactor constructors. -/
def latencyMsg : String :=
  "Makes no sense to lookahead more than you can deliberate. Biting off more than you can chew."

/-- The second TeleoReactor constructor (explicit arguments); both
constructors initialise the same fields and run
checkError(m_latency <= m_lookAhead, ...). -/
def TeleoReactor.construct (agentName name : String) (lookAhead latency : Nat)
    (log : Bool) : Except String TeleoReactorState :=
  if latency ≤ lookAhead then
    .ok ⟨name, agentName, lookAhead, latency, log⟩
  else
    .error latencyMsg

/-- TeleoReactor::getLookAheadFromXML: a missing lookAhead attribute
defaults to the agent's final tick. -/
def getLookAheadFromXML (lookAheadAttr : Option Nat) (finalTick : Nat) : Nat :=
  match lookAheadAttr with
  | none => finalTick
  | some v => v

/-- The XML TeleoReactor constructor: lookAhead resolved through
getLookAheadFromXML, then the same latency check. -/
def TeleoReactor.constructFromXML (agentName name : String)
    (lookAheadAttr : Option Nat) (finalTick latency : Nat) (log : Bool) :
    Except String TeleoReactorState :=
  TeleoReactor.construct agentName name
    (getLookAheadFromXML lookAheadAttr finalTick) latency log

/-- TeleoReactor::getLatency, a const accessor of the const field. -/
def TeleoReactorState.getLatency (r : TeleoReactorState) : Nat := r.m_latency

/-- TeleoReactor::getLookAhead, a const accessor of the const field. -/
def TeleoReactorState.getLookAhead (r : TeleoReactorState) : Nat := r.m_lookAhead

/-- Claim C3: a reactor whose latency exceeds its lookAhead fails the
constructors' checkError (a fatal error during initialization, before any
tick); any successfully constructed reactor returns its construction-time
latency and lookAhead from getLatency/getLookAhead for its whole lifetime
(no operation reassigns them) and satisfies getLatency <= getLookAhead. -/
theorem teleoReactor_latency_invariant (agentName name : String)
    (lookAhead latency : Nat) (log : Bool) :
    (lookAhead < latency →
      TeleoReactor.construct agentName name lookAhead latency log = .error latencyMsg) ∧
    (∀ r, TeleoReactor.construct agentName name lookAhead latency log = .ok r →
      r.getLatency = latency ∧ r.getLookAhead = lookAhead ∧
      r.getLatency ≤ r.getLookAhead) := by
  constructor
  · intro hlt
    rw [TeleoReactor.construct, if_neg (by omega)]
  · intro r hr
    by_cases hle : latency ≤ lookAhead
    · rw [TeleoReactor.construct, if_pos hle] at hr
      cases hr
      exact ⟨rfl, rfl, hle⟩
    · rw [TeleoReactor.construct, if_neg hle] at hr
      exact Except.noConfusion hr

theorem teleoReactor_latency_invariant_witness :
    TeleoReactor.construct "ag" "r" 5 7 true = .error latencyMsg ∧
    (TeleoReactorState.getLatency ⟨"nav", "ag", 10, 3, false⟩ = 3 ∧
      TeleoReactorState.getLookAhead ⟨"nav", "ag", 10, 3, false⟩ = 10 ∧
      TeleoReactorState.getLatency ⟨"nav", "ag", 10, 3, false⟩ ≤
        TeleoReactorState.getLookAhead ⟨"nav", "ag", 10, 3, false⟩) :=
  ⟨(teleoReactor_latency_invariant "ag" "r" 5 7 true).1 (by decide),
   (teleoReactor_latency_invariant "ag" "nav" 10 3 false).2
     ⟨"nav", "ag", 10, 3, false⟩ rfl⟩

end TREX

namespace TREX

/-- The externally visible effects of delivering a goal to a reactor, in the
order they happen on the caller's thread.  A call returns exactly when its
whole event list has happened; nothing is queued for a later tick or another
thread. -/
inductive ReactorEvent
  | agentLogRequest (goal : String)
  | agentLogRecall (goal : String)
  | trexLog (line : String)
  | handleRequest (goal : String)
  | handleRecall (goal : String)
deriving DecidableEq

/-- TeleoReactor::nameString(): "[name][tick]". -/
def nameString (name : String) (tick : Nat) : String :=
  "[" ++ name ++ "][" ++ toString tick ++ "]"

/-- TeleoReactor::request: log via Agent::logRequest, write the TREXLog
line, then call handleRequest — sequentially, before returning. -/
def TeleoReactor.requestTrace (name : String) (tick : Nat) (goal : String) :
    List ReactorEvent :=
  [.agentLogRequest goal,
   .trexLog (nameString name tick ++ "Request received: " ++ goal),
   .handleRequest goal]

/-- TeleoReactor::recall: log via Agent::logRecall, write the TREXLog line,
then call handleRecall. -/
def TeleoReactor.recallTrace (name : String) (tick : Nat) (goal : String) :
    List ReactorEvent :=
  [.agentLogRecall goal,
   .trexLog (nameString name tick ++ "Recall received: " ++ goal),
   .handleRecall goal]

/-- TeleoServer::request(goal) { m_reactor->request(goal); } -/
def TeleoServer.requestTrace (name : String) (tick : Nat) (goal : String) :
    List ReactorEvent :=
  TeleoReactor.requestTrace name tick goal

/-- TeleoServer::recall(goal) { m_reactor->recall(goal); } -/
def TeleoServer.recallTrace (name : String) (tick : Nat) (goal : String) :
    List ReactorEvent :=
  TeleoReactor.recallTrace name tick goal

/-- Claim C5: request (resp. recall) on the owning reactor's server
connector synchronously runs the reactor's request (resp. recall), whose
complete effect — logging the goal, then handleRequest (resp. handleRecall)
— happens before the call returns: the delivered trace is exactly the log
events followed by the handler invocation, and the server adds nothing of
its own. -/
theorem server_request_recall_synchronous (name : String) (tick : Nat) (goal : String) :
    (TeleoServer.requestTrace name tick goal = TeleoReactor.requestTrace name tick goal ∧
      TeleoServer.requestTrace name tick goal =
        [.agentLogRequest goal,
         .trexLog (nameString name tick ++ "Request received: " ++ goal)] ++
        [.handleRequest goal]) ∧
    (TeleoServer.recallTrace name tick goal = TeleoReactor.recallTrace name tick goal ∧
      TeleoServer.recallTrace name tick goal =
        [.agentLogRecall goal,
         .trexLog (nameString name tick ++ "Recall received: " ++ goal)] ++
        [.handleRecall goal]) :=
  ⟨⟨rfl, rfl⟩, ⟨rfl, rfl⟩⟩

/-- TeleoReactor::getFactory: look the name up in the table, returning the
no-id value (none) when absent. -/
def getFactory {α : Type} (tbl : List (String × α)) (name : String) : Option α :=
  match tbl.find? (fun p => p.1 == name) with
  | some p => some p.2
  | none => none

/-- TeleoReactor::registerFactory: checkError(getFactory(name) == noId,
"Already registered " << name), then insert the binding. -/
def registerFactory {α : Type} (tbl : List (String × α)) (name : String) (fac : α) :
    Except String (List (String × α)) :=
  if (getFactory tbl name).isSome then .error ("Already registered " ++ name)
  else .ok ((name, fac) :: tbl)

/-- Claim C9: registering under an already-bound name fails with the
"Already registered" error; otherwise the binding is added, after which
lookup of that name yields the factory while every other name resolves as
before; lookup in a table without the name (in particular the empty table)
yields the no-id value. -/
theorem factory_registry_spec {α : Type} (tbl : List (String × α))
    (name : String) (fac : α) :
    (getFactory ([] : List (String × α)) name = none) ∧
    ((getFactory tbl name).isSome = true →
      registerFactory tbl name fac = .error ("Already registered " ++ name)) ∧
    (getFactory tbl name = none →
      ∃ tbl2, registerFactory tbl name fac = .ok tbl2 ∧
        getFactory tbl2 name = some fac ∧
        ∀ other, other ≠ name → getFactory tbl2 other = getFactory tbl other) := by
  refine ⟨rfl, ?_, ?_⟩
  · intro h
    rw [registerFactory, if_pos h]
  · intro h
    refine ⟨(name, fac) :: tbl, ?_, ?_, ?_⟩
    · rw [registerFactory, if_neg (by rw [h]; exact Bool.false_ne_true)]
    · simp [getFactory, List.find?]
    · intro other hne
      have : (name == other) = false := by
        cases hx : name == other with
        | false => rfl
        | true => exact absurd (eq_of_beq hx).symm hne
      simp [getFactory, List.find?, this]

theorem factory_registry_spec_witness :
    registerFactory [("x", 1)] "x" 5 = .error ("Already registered " ++ "x") ∧
    (∃ tbl2, registerFactory ([] : List (String × Nat)) "y" 2 = .ok tbl2 ∧
      getFactory tbl2 "y" = some 2 ∧
      ∀ other, other ≠ "y" →
        getFactory tbl2 other = getFactory ([] : List (String × Nat)) other) :=
  ⟨(factory_registry_spec [("x", 1)] "x" 5).2.1 (by decide),
   (factory_registry_spec ([] : List (String × Nat)) "y" 2).2.2 rfl⟩

end TREX

namespace TREX

/-- Modelled from the spec: the implementation file of
PseudoClock::getNextTick (AgentClock.cc) is missing from the sources; only
the declaration in AgentClock.hh (fields m_tick, m_internalTicks,
m_stepsPerTick) is present.  Spec 4.1, StepClock: "Each call to next_tick()
increments an internal counter; the externally visible tick advances every
steps_per_tick calls", with the first call returning tick 0, so the i-th
call (1-based) returns floor((i-1)/steps_per_tick).  No wall time enters
the state at all. -/
structure PseudoClock where
  m_tick : Nat
  m_internalTicks : Nat
  m_stepsPerTick : Nat

/-- PseudoClock freshly constructed with the given steps_per_tick. -/
def PseudoClock.init (stepsPerTick : Nat) : PseudoClock :=
  ⟨0, 0, stepsPerTick⟩

/-- Modelled from the spec: one getNextTick() poll returns the current
visible tick m_internalTicks / m_stepsPerTick and increments the internal
counter. -/
def PseudoClock.getNextTick (c : PseudoClock) : Nat × PseudoClock :=
  (c.m_internalTicks / c.m_stepsPerTick,
   ⟨c.m_internalTicks / c.m_stepsPerTick, c.m_internalTicks + 1, c.m_stepsPerTick⟩)

/-- The ticks returned by n successive getNextTick() polls. -/
def PseudoClock.poll (c : PseudoClock) : Nat → List Nat
  | 0 => []
  | k + 1 => (c.getNextTick).1 :: (c.getNextTick).2.poll k

theorem pseudoClock_poll_getD (t c0 k : Nat) :
    ∀ (n i : Nat), i < n →
      ((⟨t, c0, k⟩ : PseudoClock).poll n).getD i 0 = (c0 + i) / k := by
  intro n
  induction n generalizing t c0 with
  | zero => intro i h; omega
  | succ n ih =>
    intro i h
    cases i with
    | zero => simp [PseudoClock.poll, PseudoClock.getNextTick]
    | succ i =>
      have := ih (c0 / k) (c0 + 1) i (by omega)
      simp only [PseudoClock.poll, PseudoClock.getNextTick, List.getD_cons_succ]
      rw [this]
      congr 1
      omega

/-- Claim C4 (spec-modelled): the step clock's tick sequence is a pure
function of the poll count — the i-th poll (1-based) returns
floor((i-1)/steps_per_tick); with steps_per_tick 3 twelve polls give
0,0,0,1,1,1,2,2,2,3,3,3 and with 2 six polls give 0,0,1,1,2,2. -/
theorem pseudoClock_tick_sequence :
    (∀ k n i : Nat, 1 ≤ k → i < n →
      ((PseudoClock.init k).poll n).getD i 0 = i / k) ∧
    (PseudoClock.init 3).poll 12 = [0, 0, 0, 1, 1, 1, 2, 2, 2, 3, 3, 3] ∧
    (PseudoClock.init 2).poll 6 = [0, 0, 1, 1, 2, 2] := by
  refine ⟨?_, rfl, rfl⟩
  intro k n i _ h
  have h2 := pseudoClock_poll_getD 0 0 k n i h
  rw [PseudoClock.init, h2]
  congr 1
  omega

theorem pseudoClock_tick_sequence_witness :
    ((PseudoClock.init 3).poll 12).getD 7 0 = 7 / 3 ∧
    (PseudoClock.init 2).poll 6 = [0, 0, 1, 1, 2, 2] :=
  ⟨pseudoClock_tick_sequence.1 3 12 7 (by decide) (by decide),
   pseudoClock_tick_sequence.2.2⟩

end TREX

namespace TREX

/-- A EUROPA domain member: in the C++ a double that encodes a numeric
value, a LabelStr key, or an ObjectId.  Only integral numeric values are
modelled (the claims involve no fractional doubles); label and object keys
are nonzero heap addresses, so as a boolean they read as true, and they
never reach the numeric converters on type-correct domains. -/
inductive EDouble
  | num (n : Int)
  | label (s : String)
  | obj (name : String)
deriving DecidableEq

/-- The helper ::bool_val_to_str — value ? "true" : "false". -/
def bool_val_to_str : EDouble → String
  | .num n => if n = 0 then "false" else "true"
  | .label _ => "true"
  | .obj _ => "true"

/-- The helper ::int_val_to_str — decimal rendering of static_cast<int>(value). -/
def int_val_to_str : EDouble → String
  | .num n => toString n
  | .label _ => "0"
  | .obj _ => "0"

/-- The helper ::double_val_to_str — std::ios::fixed with the default precision 6;
on the integral values modelled here that is the digits followed by
".000000". -/
def double_val_to_str : EDouble → String
  | .num n => toString n ++ ".000000"
  | .label _ => "0.000000"
  | .obj _ => "0.000000"

/-- The helper ::string_val_to_str — the LabelStr decoded from the double. -/
def string_val_to_str : EDouble → String
  | .num _ => ""
  | .label s => s
  | .obj _ => ""

/-- The helper ::object_val_to_str — the referenced object's name. -/
def object_val_to_str : EDouble → String
  | .num _ => ""
  | .label _ => ""
  | .obj s => s

/-- LabelStr::isString on a raw double: true exactly for LabelStr keys. -/
def isLabelKey : EDouble → Bool
  | .label _ => true
  | _ => false

/-- BoolDomain::getDefaultTypeName of the external EUROPA library: "bool". -/
def boolDefaultTypeName : String := "bool"

/-- IntervalIntDomain::getDefaultTypeName of the external EUROPA library:
"int". -/
def intDefaultTypeName : String := "int"

/-- The helper ::is_bool. -/
def is_bool (typeName : String) : Bool :=
  typeName == "bool" || typeName == "BOOL" || typeName == boolDefaultTypeName

/-- The helper ::is_int. -/
def is_int (typeName : String) : Bool :=
  typeName == "int" || typeName == "INT_INTERVAL" || typeName == intDefaultTypeName

/-- PLUS_INFINITY of the external EUROPA library; only compared for
identity here, the exact value is immaterial. -/
def PLUS_INFINITY : EDouble := .num 1999999999

/-- MINUS_INFINITY of the external EUROPA library. -/
def MINUS_INFINITY : EDouble := .num (-1999999999)

/-- The observers through which EuropaXML.cc reads an EUROPA
AbstractDomain: type name, kind predicates and bounds/values.  The record
keeps exactly the queries the code performs. -/
structure AbstractDomain where
  typeName : String
  isEntity : Bool
  isNumeric : Bool
  isEmpty : Bool
  isSingleton : Bool
  isEnumerated : Bool
  isInterval : Bool
  singletonValue : EDouble
  values : List EDouble
  lowerBound : EDouble
  upperBound : EDouble
deriving DecidableEq

/-- TREX::domain_val_to_str(domain, value, symbolic). -/
def domain_val_to_str (d : AbstractDomain) (value : EDouble) (symbolic : Bool) : String :=
  if is_bool d.typeName then bool_val_to_str value
  else if d.isNumeric then
    if symbolic && value == PLUS_INFINITY then "+inf"
    else if symbolic && value == MINUS_INFINITY then "-inf"
    else if is_int d.typeName then int_val_to_str value
    else double_val_to_str value
  else if isLabelKey d.upperBound then string_val_to_str value
  else object_val_to_str value

/-- A TinyXML element as built by domain_val_to_xml / to_xml: tag,
attributes in SetAttribute order, linked children in order. -/
structure TiXmlElement where
  tag : String
  attrs : List (String × String)
  children : List TiXmlElement

/-- The helper ::domain_val_to_xml. -/
def domain_val_to_xml (d : AbstractDomain) (value : EDouble) : TiXmlElement :=
  if d.isEntity then
    ⟨"object", [("value", object_val_to_str value)], []⟩
  else if is_bool d.typeName then
    ⟨"value", [("type", "bool"), ("name", bool_val_to_str value)], []⟩
  else if d.isNumeric then
    ⟨"value", [("type", d.typeName),
       ("name", if is_int d.typeName then int_val_to_str value
                else double_val_to_str value)], []⟩
  else
    ⟨"symbol", [("type", d.typeName), ("value", string_val_to_str value)], []⟩

/-- The helper ::domain_val_print_xml — the exact characters fprintf writes. -/
def domain_val_print_xml (d : AbstractDomain) (value : EDouble) : String :=
  if d.isEntity then
    "<object value=\"" ++ object_val_to_str value ++ "\" />"
  else if is_bool d.typeName then
    "<value type=\"bool\" name=\"" ++ bool_val_to_str value ++ "\" />"
  else if d.isNumeric then
    "<value type=\"" ++ d.typeName ++ "\" name=\"" ++
      (if is_int d.typeName then int_val_to_str value
       else double_val_to_str value) ++ "\" />"
  else
    "<symbol type=\"" ++ d.typeName ++ "\" value=\"" ++
      string_val_to_str value ++ "\" />"

/-- TREX::to_xml — NULL becomes none. -/
def to_xml (d : AbstractDomain) : Option TiXmlElement :=
  if !d.isEmpty then
    if d.isSingleton then some (domain_val_to_xml d d.singletonValue)
    else if d.isEnumerated then
      some ⟨"set", [("type", d.typeName)], d.values.map (domain_val_to_xml d)⟩
    else if d.isInterval then
      some ⟨"interval",
        [("type", d.typeName),
         ("min", domain_val_to_str d d.lowerBound false),
         ("max", domain_val_to_str d d.upperBound false)], []⟩
    else none
  else none

/-- The message of print_xml's checkError(!domain.isEmpty(), ...). -/
def checkErrorMsg : String := "print_xml<AbstractDomain>: Unknown domain type."

/-- TREX::print_xml — ok carries the characters written to out; the
checkError on an empty domain aborts before anything is written. -/
def print_xml (d : AbstractDomain) : Except String String :=
  if d.isEmpty then .error checkErrorMsg
  else if d.isSingleton then .ok (domain_val_print_xml d d.singletonValue)
  else if d.isEnumerated then
    if !d.values.isEmpty then
      .ok ("<set type=\"" ++ d.typeName ++ "\">" ++
        String.join (d.values.map (domain_val_print_xml d)) ++ "</set>")
    else .ok ("<set type=\"" ++ d.typeName ++ "\"/>")
  else if d.isInterval then
    .ok ("<interval type=\"" ++ d.typeName ++ "\" min=\"" ++
      domain_val_to_str d d.lowerBound false ++ "\" max=\"" ++
      domain_val_to_str d d.upperBound false ++ "\"/>")
  else .ok ""

/-- The characters a fallible printer managed to write: none on the
aborting checkError path. -/
def writtenOutput : Except String String → String
  | .ok s => s
  | .error _ => ""

end TREX

namespace TREX

/-- Claim C6: a non-empty singleton domain serializes to exactly one
element fixed by its kind — object for entities; a bool value element
with name "true"/"false"; a value element whose name is the decimal
integer for integer numeric types; a value element in fixed-point notation
for other numeric types; a symbol element otherwise.  Both the tree
builder (to_xml) and the printer (print_xml) agree. -/
theorem singleton_domain_xml (d : AbstractDomain)
    (hne : d.isEmpty = false) (hs : d.isSingleton = true) :
    (d.isEntity = true →
      to_xml d = some ⟨"object", [("value", object_val_to_str d.singletonValue)], []⟩ ∧
      print_xml d = .ok ("<object value=\"" ++ object_val_to_str d.singletonValue ++ "\" />")) ∧
    (d.isEntity = false → is_bool d.typeName = true →
      to_xml d = some ⟨"value", [("type", "bool"),
          ("name", bool_val_to_str d.singletonValue)], []⟩ ∧
      print_xml d = .ok ("<value type=\"bool\" name=\"" ++
        bool_val_to_str d.singletonValue ++ "\" />") ∧
      (bool_val_to_str d.singletonValue = "true" ∨
        bool_val_to_str d.singletonValue = "false")) ∧
    (d.isEntity = false → is_bool d.typeName = false → d.isNumeric = true →
      is_int d.typeName = true → ∀ n : Int, d.singletonValue = .num n →
      to_xml d = some ⟨"value", [("type", d.typeName), ("name", toString n)], []⟩ ∧
      print_xml d = .ok ("<value type=\"" ++ d.typeName ++ "\" name=\"" ++
        toString n ++ "\" />")) ∧
    (d.isEntity = false → is_bool d.typeName = false → d.isNumeric = true →
      is_int d.typeName = false →
      to_xml d = some ⟨"value", [("type", d.typeName),
          ("name", double_val_to_str d.singletonValue)], []⟩ ∧
      print_xml d = .ok ("<value type=\"" ++ d.typeName ++ "\" name=\"" ++
        double_val_to_str d.singletonValue ++ "\" />")) ∧
    (d.isEntity = false → is_bool d.typeName = false → d.isNumeric = false →
      to_xml d = some ⟨"symbol", [("type", d.typeName),
          ("value", string_val_to_str d.singletonValue)], []⟩ ∧
      print_xml d = .ok ("<symbol type=\"" ++ d.typeName ++ "\" value=\"" ++
        string_val_to_str d.singletonValue ++ "\" />")) := by
  refine ⟨?_, ?_, ?_, ?_, ?_⟩
  · intro hent
    constructor
    · simp [to_xml, hne, hs, domain_val_to_xml, hent]
    · simp [print_xml, hne, hs, domain_val_print_xml, hent]
  · intro hent hb
    refine ⟨?_, ?_, ?_⟩
    · simp [to_xml, hne, hs, domain_val_to_xml, hent, hb]
    · simp [print_xml, hne, hs, domain_val_print_xml, hent, hb]
    · cases hv : d.singletonValue with
      | num n =>
        by_cases hz : n = 0
        · right; simp [bool_val_to_str, hz]
        · left; simp [bool_val_to_str, hz]
      | label s => left; rfl
      | obj s => left; rfl
  · intro hent hb hnum hi n hval
    constructor
    · simp [to_xml, hne, hs, domain_val_to_xml, hent, hb, hnum, hi, hval, int_val_to_str]
    · simp [print_xml, hne, hs, domain_val_print_xml, hent, hb, hnum, hi, hval, int_val_to_str]
  · intro hent hb hnum hi
    constructor
    · simp [to_xml, hne, hs, domain_val_to_xml, hent, hb, hnum, hi]
    · simp [print_xml, hne, hs, domain_val_print_xml, hent, hb, hnum, hi]
  · intro hent hb hnum
    constructor
    · simp [to_xml, hne, hs, domain_val_to_xml, hent, hb, hnum]
    · simp [print_xml, hne, hs, domain_val_print_xml, hent, hb, hnum]

end TREX

namespace TREX

/-- A singleton entity domain holding object "base". -/
def dObjW : AbstractDomain :=
  ⟨"Loc", true, false, false, true, false, false, .obj "base", [], .obj "base", .obj "base"⟩

/-- A singleton boolean domain holding true. -/
def dBoolW : AbstractDomain :=
  ⟨"bool", false, true, false, true, false, false, .num 1, [], .num 1, .num 1⟩

/-- A singleton int domain holding 42. -/
def dIntW : AbstractDomain :=
  ⟨"int", false, true, false, true, false, false, .num 42, [], .num 42, .num 42⟩

/-- A singleton float domain holding 2. -/
def dFloatW : AbstractDomain :=
  ⟨"float", false, true, false, true, false, false, .num 2, [], .num 2, .num 2⟩

/-- A singleton symbolic domain holding label "ACTIVE". -/
def dSymW : AbstractDomain :=
  ⟨"Mode", false, false, false, true, false, false, .label "ACTIVE", [], .label "ACTIVE", .label "ACTIVE"⟩

theorem singleton_domain_xml_witness :
    print_xml dObjW = .ok "<object value=\"base\" />" ∧
    print_xml dBoolW = .ok "<value type=\"bool\" name=\"true\" />" ∧
    print_xml dIntW = .ok "<value type=\"int\" name=\"42\" />" ∧
    print_xml dFloatW = .ok "<value type=\"float\" name=\"2.000000\" />" ∧
    print_xml dSymW = .ok "<symbol type=\"Mode\" value=\"ACTIVE\" />" :=
  ⟨((singleton_domain_xml dObjW rfl rfl).1 rfl).2,
   ((singleton_domain_xml dBoolW rfl rfl).2.1 rfl rfl).2.1,
   ((singleton_domain_xml dIntW rfl rfl).2.2.1 rfl rfl rfl rfl 42 rfl).2,
   ((singleton_domain_xml dFloatW rfl rfl).2.2.2.1 rfl rfl rfl rfl).2,
   ((singleton_domain_xml dSymW rfl rfl).2.2.2.2 rfl rfl rfl).2⟩

end TREX

namespace TREX

/-- Claim C7: an empty domain produces no element — to_xml returns none
(the C++ NULL) and print_xml writes nothing to the stream: its
checkError(!domain.isEmpty(), ...) aborts the call before any fprintf. -/
theorem empty_domain_xml (d : AbstractDomain) (h : d.isEmpty = true) :
    to_xml d = none ∧
    print_xml d = .error checkErrorMsg ∧
    writtenOutput (print_xml d) = "" := by
  refine ⟨?_, ?_, ?_⟩
  · simp [to_xml, h]
  · simp [print_xml, h]
  · simp [print_xml, h, writtenOutput]

/-- A closed empty enumerated domain of type Color: no members, so the
domain reports empty (EUROPA's EnumeratedDomain::isEmpty is exactly "no
members"). -/
def colorEmptySet : AbstractDomain :=
  ⟨"Color", false, false, true, false, true, false, .label "", [], .label "", .label ""⟩

theorem empty_domain_xml_witness :
    to_xml colorEmptySet = none ∧
    print_xml colorEmptySet = .error checkErrorMsg ∧
    writtenOutput (print_xml colorEmptySet) = "" :=
  empty_domain_xml colorEmptySet rfl

/-- Counterexample to claim C8 as stated: the empty enumerated set domain
of type Color does not serialize to the set element — print_xml hits the
checkError on empty domains instead. -/
theorem enumerated_empty_set_counterexample :
    print_xml colorEmptySet ≠ .ok ("<set type=\"Color\"/>") ∧
    print_xml colorEmptySet = .error checkErrorMsg := by
  constructor
  · intro h
    rw [show print_xml colorEmptySet = .error checkErrorMsg from rfl] at h
    exact Except.noConfusion h
  · rfl

/-- Claim C8 (amended): print_xml of a non-singleton enumerated domain
emits the set element only while the domain still reports non-empty: with
an empty value list it emits the self-closing set element, with values it
emits the set element wrapping one serialized child per value in order; a
domain that reports empty — in particular a closed empty enumerated set —
instead fails the "Unknown domain type" checkError and emits nothing. -/
theorem enumerated_set_xml (d : AbstractDomain)
    (hne : d.isEmpty = false) (hns : d.isSingleton = false)
    (he : d.isEnumerated = true) :
    (d.values = [] →
      print_xml d = .ok ("<set type=\"" ++ d.typeName ++ "\"/>")) ∧
    (d.values ≠ [] →
      print_xml d = .ok ("<set type=\"" ++ d.typeName ++ "\">" ++
        String.join (d.values.map (domain_val_print_xml d)) ++ "</set>")) ∧
    (∀ e : AbstractDomain, e.isEmpty = true →
      print_xml e = .error checkErrorMsg ∧ writtenOutput (print_xml e) = "") := by
  refine ⟨?_, ?_, ?_⟩
  · intro hv
    simp [print_xml, hne, hns, he, hv]
  · intro hv
    simp [print_xml, hne, hns, he, List.isEmpty_iff, hv]
  · intro e hemp
    constructor
    · simp [print_xml, hemp]
    · simp [print_xml, hemp, writtenOutput]

/-- An open (still non-empty by report) enumerated Color domain with no
listed values. -/
def colorOpenSet : AbstractDomain :=
  ⟨"Color", false, false, false, false, true, false, .label "", [], .label "", .label ""⟩

/-- A non-singleton enumerated Color domain listing RED and GREEN. -/
def colorTwoSet : AbstractDomain :=
  ⟨"Color", false, false, false, false, true, false, .label "",
   [.label "RED", .label "GREEN"], .label "", .label "GREEN"⟩

theorem enumerated_set_xml_witness :
    print_xml colorOpenSet = .ok "<set type=\"Color\"/>" ∧
    print_xml colorTwoSet = .ok ("<set type=\"Color\">" ++
      "<symbol type=\"Color\" value=\"RED\" /><symbol type=\"Color\" value=\"GREEN\" />" ++
      "</set>") ∧
    print_xml colorEmptySet = .error checkErrorMsg :=
  ⟨(enumerated_set_xml colorOpenSet rfl rfl rfl).1 rfl,
   (enumerated_set_xml colorTwoSet rfl rfl rfl).2.1 (by simp [colorTwoSet]),
   ((enumerated_set_xml colorOpenSet rfl rfl rfl).2.2 colorEmptySet rfl).1⟩

end TREX

namespace TREX

/-- An Observation as consumed by Observation::printXML: object (timeline)
name, predicate name, and the indexed parameters (operator[] returns the
name/domain pair at each index; countParameters is their number). -/
structure Observation where
  m_objectName : String
  m_predicateName : String
  parameters : List (String × AbstractDomain)

/-- Observation::countParameters. -/
def Observation.countParameters (o : Observation) : Nat := o.parameters.length

/-- The parameter loop in Observation::printXML: for each index in order,
write the Assert element wrapping print_xml of the domain; a failure inside
print_xml aborts the whole call. -/
def assertsPrintXML : List (String × AbstractDomain) → Except String String
  | [] => .ok ""
  | (nm, d) :: rest =>
    match print_xml d with
    | .error e => .error e
    | .ok s =>
      match assertsPrintXML rest with
      | .error e => .error e
      | .ok tailStr => .ok ("<Assert name=\"" ++ nm ++ "\">" ++ s ++ "</Assert>" ++ tailStr)

/-- Observation::printXML. -/
def Observation.printXML (o : Observation) : Except String String :=
  if o.countParameters == 0 then
    .ok ("<Observation on=\"" ++ o.m_objectName ++ "\" predicate=\"" ++
      o.m_predicateName ++ "\" />")
  else
    match assertsPrintXML o.parameters with
    | .error e => .error e
    | .ok body =>
      .ok ("<Observation on=\"" ++ o.m_objectName ++ "\" predicate=\"" ++
        o.m_predicateName ++ "\">" ++ body ++ "</Observation>")

theorem string_foldl_append (l : List String) :
    ∀ x y : String, l.foldl (fun r s => r ++ s) (x ++ y) =
      x ++ l.foldl (fun r s => r ++ s) y := by
  induction l with
  | nil => intro x y; rfl
  | cons a l ih =>
    intro x y
    rw [List.foldl_cons, List.foldl_cons, String.append_assoc, ih]

theorem stringJoin_cons (a : String) (l : List String) :
    String.join (a :: l) = a ++ String.join l := by
  show (a :: l).foldl (fun r s => r ++ s) "" = a ++ l.foldl (fun r s => r ++ s) ""
  rw [List.foldl_cons]
  have h1 : ("" : String) ++ a = a ++ "" := by simp
  rw [h1, string_foldl_append]

theorem assertsPrintXML_ok (ps : List (String × AbstractDomain))
    (h : ∀ p ∈ ps, ∃ s, print_xml p.2 = .ok s) :
    assertsPrintXML ps = .ok (String.join (ps.map (fun p =>
      "<Assert name=\"" ++ p.1 ++ "\">" ++ writtenOutput (print_xml p.2) ++
        "</Assert>"))) := by
  induction ps with
  | nil => rfl
  | cons p rest ih =>
    obtain ⟨s, hs⟩ := h p (List.mem_cons_self p rest)
    have htail := ih (fun q hq => h q (List.mem_cons_of_mem p hq))
    obtain ⟨nm, d⟩ := p
    simp only [assertsPrintXML, hs, htail, List.map_cons, stringJoin_cons]
    rfl

/-- Claim C10: an observation with no parameters prints the single
self-closing Observation element; with parameters it prints the opening
Observation tag, then for each parameter in index order one Assert element
wrapping that parameter's domain serialization, then the closing tag. -/
theorem observation_printXML_spec (o : Observation) :
    (o.parameters = [] →
      Observation.printXML o = .ok ("<Observation on=\"" ++ o.m_objectName ++
        "\" predicate=\"" ++ o.m_predicateName ++ "\" />")) ∧
    (o.parameters ≠ [] →
      (∀ p ∈ o.parameters, ∃ s, print_xml p.2 = .ok s) →
      Observation.printXML o = .ok ("<Observation on=\"" ++ o.m_objectName ++
        "\" predicate=\"" ++ o.m_predicateName ++ "\">" ++
        String.join (o.parameters.map (fun p =>
          "<Assert name=\"" ++ p.1 ++ "\">" ++ writtenOutput (print_xml p.2) ++
            "</Assert>")) ++
        "</Observation>")) := by
  constructor
  · intro h
    simp [Observation.printXML, Observation.countParameters, h]
  · intro h hall
    have hlen : (o.countParameters == 0) = false := by
      simp [Observation.countParameters, List.length_eq_zero]
      intro hx
      exact h hx
    rw [Observation.printXML, if_neg (by rw [hlen]; exact Bool.false_ne_true)]
    rw [assertsPrintXML_ok o.parameters hall]

/-- A by-value observation on timeline "nav" asserting Holds(speed in
int singleton 3, on = true). -/
def obsW : Observation :=
  ⟨"nav", "Holds", [("speed", dIntW), ("on", dBoolW)]⟩

/-- A parameterless observation. -/
def obsW0 : Observation := ⟨"nav", "Idle", []⟩

theorem observation_printXML_witness :
    Observation.printXML obsW0 = .ok "<Observation on=\"nav\" predicate=\"Idle\" />" ∧
    Observation.printXML obsW = .ok ("<Observation on=\"nav\" predicate=\"Holds\">" ++
      "<Assert name=\"speed\"><value type=\"int\" name=\"42\" /></Assert>" ++
      "<Assert name=\"on\"><value type=\"bool\" name=\"true\" /></Assert>" ++
      "</Observation>") :=
  ⟨(observation_printXML_spec obsW0).1 rfl,
   (observation_printXML_spec obsW).2 (by simp [obsW])
     (by intro p hp
         simp only [obsW, List.mem_cons] at hp
         rcases hp with rfl | hp
         · exact ⟨_, rfl⟩
         · rcases hp with rfl | hp
           · exact ⟨_, rfl⟩
           · cases hp)⟩

end TREX
